import Mathlib

/-!
# flexast.h: scanning contexts, line/column bookkeeping and token ranges

A shallow embedding of `src/flexast.h`.

* C `int` values are integers (`Int`).  `advance_pos` is the scan on
  unbounded counters; `advance_pos32` is the same scan with the counters held
  in 32 bits, an increment past `INT_MAX` wrapping around (signed overflow is
  undefined in C; wrap-around is what the usual compilers produce).  The two
  agree as long as no increment passes `INT_MAX`.
* A `char *` is a list of characters; a null pointer is `none`.  Where the
  source reads a buffer as a C string (`strlen`, `fopen`) the characters up
  to the first NUL are taken.
* The linked stack `scanner.pstack` / `position.next` is a `List position`,
  top first.
* Everything outside the header (the allocator, stdio, the tokenizer
  engine) lives in `World`: the outcomes it will give, and a `trace` of the
  calls made to it, oldest first.
* A function that can dereference a null pointer returns an `Option`;
  `none` is undefined behaviour.
-/

namespace Flexast

/-- Identity of an open stdio stream (a non-null `FILE *`). -/
abbrev FILE := Nat

/-- Buffer handle of the tokenizer engine; `0` is the null handle. -/
abbrev YY_BUFFER_STATE := Nat

/-- The NUL character that terminates a C string. -/
def NUL : Char := Char.ofNat 0

/-- The engine's end-of-buffer sentinel. -/
def YY_END_OF_BUFFER_CHAR : Char := Char.ofNat 0

/-- The `struct position` of the source, without its `next` link (the stack
is a list). -/
structure position where
  filename : Option (List Char)
  cur_line : Int
  cur_col : Int
  pre_line : Int
  pre_col : Int
  buf : YY_BUFFER_STATE
  file : Option FILE
  file_owned : Int
  string : Option (List Char)
deriving DecidableEq, Repr

/-- The `struct scanner` of the source.  The source declares the field
`last_token` and also spells it `lasttoken`; both are this field. -/
structure scanner where
  pstack : List position
  last_token : Int
deriving DecidableEq, Repr

/-- Calls made to the C library and to the tokenizer engine. -/
inductive Event where
  | fopen (path : List Char) (result : Option FILE)
  | fclose (f : FILE)
  | free_chars (s : List Char)
  | free_position
  | free_range
  | free_token
  | yy_scan_buffer (base : List Char) (size : Int) (h : YY_BUFFER_STATE)
  | yy_create_buffer (f : Option FILE) (h : YY_BUFFER_STATE)
  | yy_switch_to_buffer (h : YY_BUFFER_STATE)
  | yy_delete_buffer (h : YY_BUFFER_STATE)
  | yylex
deriving DecidableEq, Repr

/-- What the tokenizer engine finds next in its active buffer. -/
inductive Match where
  | lexeme (code : Int) (text : List Char)
  | eof
deriving DecidableEq, Repr

/-- The static `scanner`, the engine's `yytext` (`yyleng` is its length) and
the environment of the header. -/
structure World where
  scanner : Flexast.scanner
  yytext : List Char
  /-- Outcomes of the coming `malloc` calls; once exhausted, `malloc` succeeds. -/
  malloc_script : List Bool
  /-- Paths that `fopen` opens. -/
  openable : List (List Char)
  /-- Number of streams opened so far. -/
  next_file : Nat
  /-- Number of engine buffers created so far. -/
  next_buffer : Nat
  /-- What the engine will find, in order. -/
  script : List Match
  /-- Contents of a freshly allocated, not yet initialised `struct position`. -/
  uninit : position
  trace : List Event
deriving DecidableEq, Repr

/-- Append a call to the trace. -/
def World.log (w : World) (e : Event) : World :=
  { w with trace := w.trace ++ [e] }

/-- The source's `astmalloc`: `true` for a non-null result. -/
def astmalloc (_size : Int) (w : World) : Bool × World :=
  match w.malloc_script with
  | [] => (true, w)
  | b :: rest => (b, { w with malloc_script := rest })

/-- The C string held in a character buffer: the characters before the
first NUL. -/
def c_string (s : List Char) : List Char :=
  s.takeWhile (fun c => c != NUL)

/-- C `strlen`: the number of characters before the first NUL. -/
def strlen (s : List Char) : Int :=
  ((c_string s).length : Nat)

/-- The source's `clone_string`: a copy of the first `l` characters. -/
def clone_string (s : List Char) (l : Int) (w : World) : Option (List Char) × World :=
  match astmalloc (l + 1) w with
  | (false, w1) => (none, w1)
  | (true, w1) => (some (s.take l.toNat), w1)

/-- C `free` on a `char *`; freeing a null pointer does nothing. -/
def free_cstr (s : Option (List Char)) (w : World) : World :=
  match s with
  | none => w
  | some cs => w.log (Event.free_chars cs)

/-- C `fopen(path, "r")`: the path is read as a C string; a stream that
opens gets a fresh identity. -/
def fopen (path : List Char) (w : World) : Option FILE × World :=
  let name := c_string path
  if name ∈ w.openable then
    let f := w.next_file + 1
    (some f, { w with next_file := f }.log (Event.fopen name (some f)))
  else
    (none, w.log (Event.fopen name none))

/-- C `fclose`. -/
def fclose (f : FILE) (w : World) : World :=
  w.log (Event.fclose f)

/-- Engine `yy_scan_buffer`: a fresh non-null handle over `base`. -/
def yy_scan_buffer (base : List Char) (size : Int) (w : World) : YY_BUFFER_STATE × World :=
  let h := w.next_buffer + 1
  (h, { w with next_buffer := h }.log (Event.yy_scan_buffer base size h))

/-- Engine `yy_create_buffer`: a fresh non-null handle over the stream. -/
def yy_create_buffer (f : Option FILE) (w : World) : YY_BUFFER_STATE × World :=
  let h := w.next_buffer + 1
  (h, { w with next_buffer := h }.log (Event.yy_create_buffer f h))

/-- Engine `yy_switch_to_buffer`. -/
def yy_switch_to_buffer (h : YY_BUFFER_STATE) (w : World) : World :=
  w.log (Event.yy_switch_to_buffer h)

/-- Engine `yy_delete_buffer`. -/
def yy_delete_buffer (h : YY_BUFFER_STATE) (w : World) : World :=
  w.log (Event.yy_delete_buffer h)

/-- The source's `set_pos_base`: all four counters start at 1; `filename`
is written only when `fn` is not null and `buf` is not written at all. -/
def set_pos_base (fn : Option (List Char)) (w : World) : Option position × World :=
  match astmalloc 0 w with
  | (false, w1) => (none, w1)
  | (true, w1) =>
    let init (p : position) : position :=
      { p with pre_line := 1, cur_line := 1, pre_col := 1, cur_col := 1,
               file := none, file_owned := 0, string := none }
    match fn with
    | none => (some (init w1.uninit), w1)
    | some s =>
      match clone_string s (strlen s) w1 with
      | (none, w2) => (none, w2.log Event.free_position)
      | (some c, w2) => (some (init { w2.uninit with filename := some c }), w2)

/-- The source's `set_pos_string`. -/
def set_pos_string (s : List Char) (s_len : Int) (w : World) : Option position × World :=
  match set_pos_base (some ['-']) w with
  | (none, w1) => (none, w1)
  | (some p, w1) =>
    match astmalloc (s_len + 2) w1 with
    | (false, w2) => (none, (free_cstr p.filename w2).log Event.free_position)
    | (true, w2) =>
      let str := s.take s_len.toNat ++ [YY_END_OF_BUFFER_CHAR, YY_END_OF_BUFFER_CHAR]
      let r := yy_scan_buffer str (s_len + 2) w2
      (some { p with string := some str, buf := r.1 }, r.2)

/-- The source's `set_pos_file_unowned`. -/
def set_pos_file_unowned (fn : Option (List Char)) (f : Option FILE) (w : World) :
    Option position × World :=
  match set_pos_base fn w with
  | (none, w1) => (none, w1)
  | (some p, w1) =>
    let r := yy_create_buffer f w1
    (some { p with file := f, buf := r.1 }, yy_switch_to_buffer r.1 r.2)

/-- The source's `set_pos_file_owned`.  After a successful construction the
source sets `file_owned` on the context and executes `return 0`: the result
is the null pointer.  When the construction fails the source closes the
stream and then writes `p->file_owned` through the null `p`. -/
def set_pos_file_owned (fn : List Char) (w : World) : Option (Option position × World) :=
  match fopen fn w with
  | (none, w1) => some (none, w1)
  | (some f, w1) =>
    match set_pos_file_unowned (some fn) (some f) w1 with
    | (none, w2) =>
      let _w3 := fclose f w2
      none
    | (some p, w2) =>
      let _p : position := { p with file_owned := 1 }
      some (none, w2)

/-- The source's `close_pos`. -/
def close_pos (p : position) (w : World) : position × World :=
  let s1 : position × World :=
    match p.filename with
    | some fn => ({ p with filename := none }, w.log (Event.free_chars fn))
    | none => (p, w)
  let s2 : position × World :=
    match s1.1.file with
    | some f =>
      if s1.1.file_owned ≠ 0 then
        ({ s1.1 with file := none, file_owned := 0 }, fclose f s1.2)
      else s1
    | none => s1
  let s3 : position × World :=
    match s2.1.string with
    | some s => ({ s2.1 with string := none }, s2.2.log (Event.free_chars s))
    | none => s2
  if s3.1.buf ≠ 0 then
    ({ s3.1 with buf := 0 }, yy_delete_buffer s3.1.buf s3.2)
  else s3

/-- The loop body of `advance_pos` for one character. -/
def advance_char (p : position) (c : Char) : position :=
  if c = '\n' then { p with cur_line := p.cur_line + 1, cur_col := 1 }
  else { p with cur_col := p.cur_col + 1 }

/-- The source's `advance_pos`: records the previous location, then scans
`text[0 .. len-1]`. -/
def advance_pos (p : position) (text : List Char) (len : Int) : position :=
  (text.take len.toNat).foldl advance_char
    { p with pre_line := p.cur_line, pre_col := p.cur_col }

/-- Assignment to `scanner.pstack`. -/
def World.set_pstack (w : World) (s : List position) : World :=
  { w with scanner := { w.scanner with pstack := s } }

/-- Assignment to the scanner's last-token field. -/
def World.set_last_token (w : World) (t : Int) : World :=
  { w with scanner := { w.scanner with last_token := t } }

/-- The source's `is_scanning`: `scanner.pstack != 0`. -/
def is_scanning (w : World) : Int :=
  if w.scanner.pstack = [] then 0 else 1

/-- The source's `push_position`. -/
def push_position (fn : List Char) (w : World) : Option (Int × World) :=
  match set_pos_file_owned fn w with
  | none => none
  | some (none, w1) => some (0, w1)
  | some (some p, w1) => some (1, w1.set_pstack (p :: w1.scanner.pstack))

/-- The source's `push_position2`: the file name is the first `len`
characters of `start` (the parameter `begin` of the source). -/
def push_position2 (start : List Char) (len : Int) (w : World) : Option (Int × World) :=
  match astmalloc (len + 1) w with
  | (false, w1) => some (0, w1)
  | (true, w1) =>
    let buf := start.take len.toNat
    match push_position buf w1 with
    | none => none
    | some (res, w2) => some (res, w2.log (Event.free_chars buf))

/-- The source's `yywrap`; it reads `p->next` of the top without a null
check. -/
def yywrap (w : World) : Option (Int × World) :=
  match w.scanner.pstack with
  | [] => none
  | p :: next =>
    let w1 := w.set_pstack next
    let w2 := (close_pos p w1).2
    let w3 := w2.log Event.free_position
    match next with
    | [] => some (1, w3)
    | q :: _ => some (0, yy_switch_to_buffer q.buf w3)

/-- The source's `on_string`. -/
def on_string (string : List Char) (length : Int) (w : World) : Int × World :=
  if is_scanning w ≠ 0 then (0, w)
  else
    match set_pos_string string length w with
    | (none, w1) => (0, w1.set_pstack [])
    | (some p, w1) => (1, w1.set_pstack [p])

/-- The source's `on_file_name`. -/
def on_file_name (filename : List Char) (w : World) : Option (Int × World) :=
  if is_scanning w ≠ 0 then some (0, w)
  else
    match set_pos_file_owned filename w with
    | none => none
    | some (none, w1) => some (0, w1.set_pstack [])
    | some (some p, w1) => some (1, w1.set_pstack [p])

/-- The source's `on_file_pointer`. -/
def on_file_pointer (filename : Option (List Char)) (file : Option FILE) (w : World) :
    Int × World :=
  if is_scanning w ≠ 0 then (0, w)
  else
    match set_pos_file_unowned filename file w with
    | (none, w1) => (0, w1.set_pstack [])
    | (some p, w1) => (1, w1.set_pstack [p])

/-- The `while (scanner.pstack)` loop of `close_scanner`, run on the stack
`s` that `scanner.pstack` holds. -/
def close_scanner_loop : List position → World → World
  | [], w => w
  | p :: next, w =>
    let w1 := (close_pos p w).2
    let w2 := w1.log Event.free_position
    close_scanner_loop next (w2.set_pstack next)

/-- The source's `close_scanner`. -/
def close_scanner (w : World) : Int × World :=
  if is_scanning w = 0 then (1, w)
  else
    let w1 := close_scanner_loop w.scanner.pstack w
    (1, w1.set_last_token 0)

/-- The `struct location` of the source. -/
structure location where
  line : Int
  col : Int
deriving DecidableEq, Repr

/-- The source's `init_location`; the file name is not stored. -/
def init_location (_filename : List Char) (line col : Int) : location :=
  { line := line, col := col }

/-- The `struct range` of the source, without its `next` link. -/
structure range where
  filename : Option (List Char)
  start : location
  end_ : location
deriving DecidableEq, Repr

/-- A value of type `struct range *`: null, a range linked to the rest of
its chain, or an integer constant converted to a pointer. -/
inductive range_ptr where
  | null
  | node (r : range) (next : range_ptr)
  | scalar (n : Int)
deriving DecidableEq, Repr

/-- The source's `free_range`: it releases the names and keeps the nodes. -/
def free_range : range_ptr → World → Option World
  | range_ptr.null, w => some w
  | range_ptr.node r next, w => free_range next (free_cstr r.filename w)
  | range_ptr.scalar _, _ => none

/-- The source's `new_range`.  On success the source executes `return 1`:
the result is the constant 1 converted to a pointer, not the range `r` it
has filled in, and `r->next` is never written. -/
def new_range (filename : Option (List Char)) (start_line start_col end_line end_col : Int)
    (next : range_ptr) (w : World) : Option (range_ptr × World) :=
  match astmalloc 0 w with
  | (false, w1) => some (range_ptr.null, w1)
  | (true, w1) =>
    match filename with
    | none => none
    | some fn =>
      match clone_string fn (strlen fn) w1 with
      | (none, w2) =>
        match free_range next w2 with
        | none => none
        | some w3 => some (range_ptr.null, w3.log Event.free_range)
      | (some c, w2) =>
        let _r : range :=
          { filename := some c
            start := init_location fn start_line start_col
            end_ := init_location fn end_line end_col }
        some (range_ptr.scalar 1, w2)

/-- The source's `range_of_position`, on the stack from `p` downwards. -/
def range_of_position : List position → World → Option (range_ptr × World)
  | [], w => some (range_ptr.null, w)
  | p :: next, w =>
    match range_of_position next w with
    | none => none
    | some (r_next, w1) =>
      if r_next = range_ptr.null then some (range_ptr.null, w1)
      else
        match new_range p.filename p.pre_line p.pre_col p.cur_line (p.cur_col - 1) r_next w1 with
        | none => none
        | some (r, w2) =>
          if r = range_ptr.null then
            match free_range r_next w2 with
            | none => none
            | some w3 => some (range_ptr.null, w3)
          else some (r, w2)

/-- The `struct token` of the source. -/
structure token where
  location : range_ptr
  token : Int
  text : Option (List Char)
deriving DecidableEq, Repr

/-- The source's `make_token`. -/
def make_token (w : World) : Option (Option token × World) :=
  match astmalloc 0 w with
  | (false, w1) => some (none, w1)
  | (true, w1) =>
    match range_of_position w1.scanner.pstack w1 with
    | none => none
    | some (p, w2) =>
      if p = range_ptr.null then some (none, w2.log Event.free_token)
      else
        let c := clone_string w2.yytext w2.yytext.length w2
        some (some { location := p, token := w2.scanner.last_token, text := c.1 }, c.2)

/-- The engine's `yylex` on what it will find: a lexeme sets `yytext` and
returns its code; at end of input the engine calls `yywrap`, returns 0 when
that answers non-zero and goes on scanning otherwise.  Rule actions that do
not return, and a script that is used up (answer 0), are outside the header. -/
def yylex_from : List Match → World → Option (Int × World)
  | [], w => some (0, { w with script := [] })
  | Match.lexeme code text :: rest, w =>
    some (code, { w with yytext := text, script := rest })
  | Match.eof :: rest, w =>
    match yywrap { w with script := rest } with
    | none => none
    | some (r, w1) => if r ≠ 0 then some (0, w1) else yylex_from rest w1

/-- The engine's `yylex`. -/
def yylex (w : World) : Option (Int × World) :=
  yylex_from w.script (w.log Event.yylex)

/-- The source's `ADVANCE`: `advance_pos(scanner.pstack, yytext, yyleng)`. -/
def ADVANCE (w : World) : Option World :=
  match w.scanner.pstack with
  | [] => none
  | p :: next => some (w.set_pstack (advance_pos p w.yytext w.yytext.length :: next))

/-- The source's `read_token`. -/
def read_token (w : World) : Option (Option token × World) :=
  if is_scanning w = 0 then some (none, w)
  else
    match yylex w with
    | none => none
    | some (code, w1) =>
      let w2 := w1.set_last_token code
      if code = 0 then some (none, w2)
      else
        match ADVANCE w2 with
        | none => none
        | some w3 => make_token w3

/-- The source's `last_token`. -/
def last_token (w : World) : Option (Option token × World) :=
  if is_scanning w = 0 ∨ w.scanner.last_token = 0 then some (none, w)
  else make_token w

/-- Every coming allocation succeeds. -/
def allocs_succeed (w : World) : Prop :=
  ∀ b ∈ w.malloc_script, b = true

instance (w : World) : Decidable (allocs_succeed w) :=
  inferInstanceAs (Decidable (∀ b ∈ w.malloc_script, b = true))

/-- The world after `n` allocations have been answered. -/
def World.after_mallocs (w : World) (n : Nat) : World :=
  { w with malloc_script := w.malloc_script.drop n }

/-- Run `yywrap` `n` times in a row, collecting the values it returns. -/
def yywrap_times : Nat → World → Option (List Int × World)
  | 0, w => some ([], w)
  | n + 1, w =>
    match yywrap w with
    | none => none
    | some (r, w1) =>
      match yywrap_times n w1 with
      | none => none
      | some (rs, w2) => some (r :: rs, w2)

/-- Number of ranges in the chain a `struct range *` points to. -/
def range_ptr.length : range_ptr → Nat
  | range_ptr.null => 0
  | range_ptr.node _ next => next.length + 1
  | range_ptr.scalar _ => 0

/-- Advance over the lexemes `ts` one after another, as `read_token` does
for successive matches. -/
def advance_all (p : position) (ts : List (List Char)) : position :=
  ts.foldl (fun q t => advance_pos q t t.length) p

/-- The world after a file context for the path `name` has been built:
two allocations, one stream opened, one engine buffer created and made
current. -/
def World.after_file_context (w : World) (name : List Char) : World :=
  { w.after_mallocs 2 with
      next_file := w.next_file + 1
      next_buffer := w.next_buffer + 1
      trace := w.trace ++
        [Event.fopen name (some (w.next_file + 1)),
         Event.yy_create_buffer (some (w.next_file + 1)) (w.next_buffer + 1),
         Event.yy_switch_to_buffer (w.next_buffer + 1)] }

/-- An idle scanner: the path "a" opens, the next four allocations succeed
and the engine will match "abc" with code 7. -/
def sample_idle : World :=
  { scanner := { pstack := [], last_token := 0 }
    yytext := []
    malloc_script := [true, true, true, true]
    openable := [['a']]
    next_file := 0
    next_buffer := 0
    script := [Match.lexeme 7 ['a', 'b', 'c']]
    uninit := { filename := none, cur_line := 0, cur_col := 0, pre_line := 0, pre_col := 0,
                buf := 0, file := none, file_owned := 0, string := none }
    trace := [] }

/-- A session two contexts deep: an owned file "b" at (3,5) included from a
string source at (2,1). -/
def sample_nested : World :=
  { sample_idle with
    scanner :=
      { pstack :=
          [{ filename := some ['b'], cur_line := 3, cur_col := 5, pre_line := 3, pre_col := 2,
             buf := 2, file := some 1, file_owned := 1, string := none },
           { filename := some ['-'], cur_line := 2, cur_col := 1, pre_line := 1, pre_col := 4,
             buf := 1, file := none, file_owned := 0,
             string := some ['x', '\n', YY_END_OF_BUFFER_CHAR, YY_END_OF_BUFFER_CHAR] }]
        last_token := 7 }
    next_file := 1
    next_buffer := 2 }

/-- Position well-formedness: all four counters are at least 1 and the
previous position does not lie after the current one in document order. -/
def well_formed (p : position) : Prop :=
  1 ≤ p.cur_line ∧ 1 ≤ p.cur_col ∧ 1 ≤ p.pre_line ∧ 1 ≤ p.pre_col ∧
  (p.pre_line < p.cur_line ∨ (p.pre_line = p.cur_line ∧ p.pre_col ≤ p.cur_col))

instance (p : position) : Decidable (well_formed p) :=
  inferInstanceAs (Decidable (_ ∧ _))

/-- A context as `set_pos_base` leaves it: every counter is 1. -/
def sample_fresh : position :=
  { filename := some ['-'], cur_line := 1, cur_col := 1, pre_line := 1, pre_col := 1,
    buf := 1, file := none, file_owned := 0, string := none }

/-- The calls `close_pos` makes for a context, in order: the display name
is freed when present, the stream is closed when present and owned, the
string is freed when present, the engine buffer is deleted when not null. -/
def close_events (p : position) : List Event :=
  (match p.filename with
    | some fn => [Event.free_chars fn]
    | none => []) ++
  (match p.file with
    | some f => if p.file_owned ≠ 0 then [Event.fclose f] else []
    | none => []) ++
  (match p.string with
    | some s => [Event.free_chars s]
    | none => []) ++
  (if p.buf ≠ 0 then [Event.yy_delete_buffer p.buf] else [])

/-- The calls that release a whole stack, top first: for each context the
calls of `close_pos`, then the `free` of the context. -/
def released : List position → List Event
  | [] => []
  | p :: next => close_events p ++ [Event.free_position] ++ released next

/-- The streams closed in a trace, in order. -/
def closed_files (es : List Event) : List FILE :=
  es.filterMap (fun e => match e with
    | Event.fclose f => some f
    | _ => none)

/-- The engine buffers deleted in a trace, in order. -/
def deleted_buffers (es : List Event) : List YY_BUFFER_STATE :=
  es.filterMap (fun e => match e with
    | Event.yy_delete_buffer h => some h
    | _ => none)

/-- The contexts freed in a trace. -/
def freed_positions (es : List Event) : Nat :=
  es.count Event.free_position

/-- An idle scanner on which the context allocation succeeds and the copy
of the display name fails. -/
def sample_alloc_failure : World :=
  { sample_idle with malloc_script := [true, false] }

/-- Largest value of a 32-bit C `int`. -/
def INT_MAX : Int := 2147483647

/-- Smallest value of a 32-bit C `int`. -/
def INT_MIN : Int := -2147483648

/-- The value a 32-bit `int` holds for the arithmetic result `x`:
two's-complement wrap-around modulo 2^32. -/
def wrap_int (x : Int) : Int :=
  (x + 2147483648) % 4294967296 - 2147483648

/-- The loop body of `advance_pos` for one character, the counters being
32-bit `int`s: `++` wraps around. -/
def advance_char32 (p : position) (c : Char) : position :=
  if c = '\n' then { p with cur_line := wrap_int (p.cur_line + 1), cur_col := 1 }
  else { p with cur_col := wrap_int (p.cur_col + 1) }

/-- The source's `advance_pos` with the counters as 32-bit `int`s. -/
def advance_pos32 (p : position) (text : List Char) (len : Int) : position :=
  (text.take len.toNat).foldl advance_char32
    { p with pre_line := p.cur_line, pre_col := p.cur_col }

/-- Number of characters of `t` before its first line break (all of `t` when
it has none). -/
def before_first_newline (t : List Char) : Nat :=
  (t.takeWhile (fun c => c != '\n')).length

/-- Number of characters of `t` after its last line break (all of `t` when
it has none). -/
def after_last_newline (t : List Char) : Nat :=
  (t.reverse.takeWhile (fun c => c != '\n')).length

/-! ## The location tracker -/

theorem after_last_newline_snoc (t : List Char) (c : Char) :
    after_last_newline (t ++ [c]) = if c = '\n' then 0 else after_last_newline t + 1 := by
  unfold after_last_newline
  by_cases h : c = '\n' <;> simp [List.takeWhile_cons, h]

theorem after_last_newline_of_not_mem (t : List Char) (h : '\n' ∉ t) :
    after_last_newline t = t.length := by
  unfold after_last_newline
  have hall : ∀ c ∈ t.reverse, (fun c => c != '\n') c = true := by
    intro c hc
    have hne : c ≠ '\n' := fun e => h (e ▸ List.mem_reverse.mp hc)
    simpa using hne
  rw [List.takeWhile_eq_self_iff.mpr hall, List.length_reverse]

/-- The scan of `advance_pos` in closed form. -/
theorem foldl_advance_char (p : position) (t : List Char) :
    t.foldl advance_char p =
      { p with
        cur_line := p.cur_line + (t.count '\n' : Nat)
        cur_col := if '\n' ∈ t then (after_last_newline t : Int) + 1
                   else p.cur_col + (t.length : Nat) } := by
  induction t using List.reverseRecOn with
  | nil => simp
  | append_singleton t c ih =>
    rw [List.foldl_append, ih]
    by_cases hc : c = '\n'
    · subst hc
      simp [advance_char, after_last_newline_snoc, List.count_append, add_assoc]
    · have hc2 : ¬ ('\n' = c) := fun e => hc e.symm
      by_cases hm : '\n' ∈ t
      · simp [advance_char, after_last_newline_snoc, hc, hc2, hm, List.count_append,
          List.count_cons]
      · simp [advance_char, after_last_newline_snoc, hc, hc2, hm, List.count_append,
          List.count_cons, add_assoc]

theorem advance_pos_eq (p : position) (t : List Char) :
    advance_pos p t t.length =
      { p with
        pre_line := p.cur_line
        pre_col := p.cur_col
        cur_line := p.cur_line + (t.count '\n' : Nat)
        cur_col := if '\n' ∈ t then (after_last_newline t : Int) + 1
                   else p.cur_col + (t.length : Nat) } := by
  simp [advance_pos, foldl_advance_char]

/-- On unbounded counters `advance_pos` over a text with `k` line breaks
adds `k` to `cur_line`; `cur_col` becomes (characters after the last line
break) + 1 when `k ≥ 1` and the old `cur_col` plus the length when `k = 0`. -/
theorem advance_pos_line_col (p : position) (t : List Char) :
    (advance_pos p t t.length).cur_line = p.cur_line + (t.count '\n' : Nat) ∧
    (advance_pos p t t.length).cur_col =
      (if 1 ≤ t.count '\n' then (after_last_newline t : Int) + 1
       else p.cur_col + (t.length : Nat)) ∧
    (advance_pos { p with cur_col := 1 } t t.length).cur_col =
      (after_last_newline t : Int) + 1 := by
  refine ⟨by rw [advance_pos_eq], ?_, ?_⟩
  · rw [advance_pos_eq]
    by_cases hm : '\n' ∈ t
    · have : 1 ≤ t.count '\n' := List.count_pos_iff.mpr hm
      simp [hm, this]
    · have : t.count '\n' = 0 := List.count_eq_zero.mpr hm
      simp [hm, this]
  · rw [advance_pos_eq]
    by_cases hm : '\n' ∈ t
    · simp [hm]
    · simp [hm, after_last_newline_of_not_mem t hm, add_comm]

theorem advance_pos_append_cur (p : position) (t u : List Char) :
    (advance_pos (advance_pos p t t.length) u u.length).cur_line =
      (advance_pos p (t ++ u) (t ++ u).length).cur_line ∧
    (advance_pos (advance_pos p t t.length) u u.length).cur_col =
      (advance_pos p (t ++ u) (t ++ u).length).cur_col := by
  simp only [advance_pos, Int.toNat_ofNat, List.take_length, List.foldl_append,
    foldl_advance_char]
  simp

theorem advance_all_cur (p : position) (ts : List (List Char)) :
    (advance_all p ts).cur_line = (advance_pos p ts.flatten ts.flatten.length).cur_line ∧
    (advance_all p ts).cur_col = (advance_pos p ts.flatten ts.flatten.length).cur_col := by
  induction ts generalizing p with
  | nil => simp [advance_all, advance_pos]
  | cons t ts ih =>
    have h := ih (advance_pos p t t.length)
    have happ := advance_pos_append_cur p t ts.flatten
    simp only [advance_all, List.foldl_cons, List.flatten_cons] at h ⊢
    exact ⟨h.1.trans happ.1, h.2.trans happ.2⟩

/-- C3: after the lexemes `ts` have been advanced over one by one, the start
recorded for the next lexeme `t` (`pre_line`, `pre_col`) is the current
position reached by advancing once over the concatenation of `ts`; on a
context at (1,1), after the text "a\n" the lexeme "b" starts at (2,1). -/
theorem last_lexeme_start (p : position) (ts : List (List Char)) (t : List Char) :
    (advance_pos (advance_all p ts) t t.length).pre_line =
      (advance_pos p ts.flatten ts.flatten.length).cur_line ∧
    (advance_pos (advance_all p ts) t t.length).pre_col =
      (advance_pos p ts.flatten ts.flatten.length).cur_col ∧
    (advance_pos
        (advance_all { p with cur_line := 1, cur_col := 1, pre_line := 1, pre_col := 1 }
          [['a', '\n']]) ['b'] 1).pre_line = 2 ∧
    (advance_pos
        (advance_all { p with cur_line := 1, cur_col := 1, pre_line := 1, pre_col := 1 }
          [['a', '\n']]) ['b'] 1).pre_col = 1 := by
  have h := advance_all_cur p ts
  refine ⟨?_, ?_, ?_, ?_⟩
  · rw [advance_pos_eq]; exact h.1
  · rw [advance_pos_eq]; exact h.2
  · simp [advance_all, advance_pos, advance_char]
  · simp [advance_all, advance_pos, advance_char]

/-! ### Counters held in 32 bits -/

theorem wrap_int_of_range (x : Int) (h0 : INT_MIN ≤ x) (h1 : x ≤ INT_MAX) :
    wrap_int x = x := by
  unfold INT_MIN at h0
  unfold INT_MAX at h1
  unfold wrap_int
  omega

theorem before_first_newline_le (t : List Char) : before_first_newline t ≤ t.length := by
  unfold before_first_newline
  exact (List.takeWhile_sublist _).length_le

/-- While no increment passes `INT_MAX` the 32-bit scan is the scan on
unbounded counters. -/
theorem foldl_advance_char32 (t : List Char) (p : position)
    (hl0 : INT_MIN ≤ p.cur_line) (hl : p.cur_line + (t.count '\n' : Nat) ≤ INT_MAX)
    (hc0 : INT_MIN ≤ p.cur_col)
    (hc : p.cur_col + (before_first_newline t : Nat) ≤ INT_MAX)
    (hlen : (t.length : Int) ≤ INT_MAX) :
    t.foldl advance_char32 p = t.foldl advance_char p := by
  induction t generalizing p with
  | nil => rfl
  | cons c cs ih =>
    have hle := before_first_newline_le cs
    simp only [List.length_cons, Nat.cast_add, Nat.cast_one] at hlen
    by_cases hn : c = '\n'
    · subst hn
      simp only [List.count_cons_self, Nat.cast_add, Nat.cast_one] at hl
      have hw : wrap_int (p.cur_line + 1) = p.cur_line + 1 :=
        wrap_int_of_range _ (by omega) (by omega)
      have hstep : advance_char32 p '\n' = advance_char p '\n' := by
        simp [advance_char32, advance_char, hw]
      rw [List.foldl_cons, List.foldl_cons, hstep]
      apply ih
      · simp only [advance_char, if_true]; omega
      · simp only [advance_char, if_true]; omega
      · simp only [advance_char, if_true]; unfold INT_MIN; omega
      · simp only [advance_char, if_true]; omega
      · omega
    · have hb : before_first_newline (c :: cs) = before_first_newline cs + 1 := by
        simp [before_first_newline, List.takeWhile_cons, hn]
      have hcnt : (c :: cs).count '\n' = cs.count '\n' := by
        simp [List.count_cons, hn]
      rw [hb] at hc
      rw [hcnt] at hl
      simp only [Nat.cast_add, Nat.cast_one] at hc
      have hw : wrap_int (p.cur_col + 1) = p.cur_col + 1 :=
        wrap_int_of_range _ (by omega) (by omega)
      have hstep : advance_char32 p c = advance_char p c := by
        simp [advance_char32, advance_char, hn, hw]
      rw [List.foldl_cons, List.foldl_cons, hstep]
      apply ih
      · simp only [advance_char, hn, if_false]; exact hl0
      · simp only [advance_char, hn, if_false]; exact hl
      · simp only [advance_char, hn, if_false]; omega
      · simp only [advance_char, hn, if_false]; omega
      · omega

theorem advance_pos32_eq (p : position) (t : List Char)
    (hl0 : INT_MIN ≤ p.cur_line) (hl : p.cur_line + (t.count '\n' : Nat) ≤ INT_MAX)
    (hc0 : INT_MIN ≤ p.cur_col)
    (hc : p.cur_col + (before_first_newline t : Nat) ≤ INT_MAX)
    (hlen : (t.length : Int) ≤ INT_MAX) :
    advance_pos32 p t t.length = advance_pos p t t.length := by
  simp only [advance_pos32, advance_pos, Int.toNat_ofNat, List.take_length]
  exact foldl_advance_char32 t _ hl0 hl hc0 hc hlen

/-- C1 as amended: when the counters of `p` and the length of `t` are
`int` values and no increment passes `INT_MAX` (the line plus the number `k`
of line breaks, and the column plus the number of characters before the
first line break, are at most `INT_MAX`), `advance_pos` adds `k` to
`cur_line` and leaves `cur_col` at (characters after the last line break) + 1
when `k ≥ 1` and at the old `cur_col` plus the length when `k = 0`; from
column 1 that is (characters consumed since the last line break) + 1. -/
theorem advance_pos32_line_col (p : position) (t : List Char)
    (hl0 : INT_MIN ≤ p.cur_line) (hl : p.cur_line + (t.count '\n' : Nat) ≤ INT_MAX)
    (hc0 : INT_MIN ≤ p.cur_col)
    (hc : p.cur_col + (before_first_newline t : Nat) ≤ INT_MAX)
    (hlen : (t.length : Int) ≤ INT_MAX) :
    (advance_pos32 p t t.length).cur_line = p.cur_line + (t.count '\n' : Nat) ∧
    (advance_pos32 p t t.length).cur_col =
      (if 1 ≤ t.count '\n' then (after_last_newline t : Int) + 1
       else p.cur_col + (t.length : Nat)) ∧
    (p.cur_col = 1 →
      (advance_pos32 p t t.length).cur_col = (after_last_newline t : Int) + 1) := by
  rw [advance_pos32_eq p t hl0 hl hc0 hc hlen, advance_pos_eq]
  by_cases hm : '\n' ∈ t
  · have hk : 1 ≤ t.count '\n' := List.count_pos_iff.mpr hm
    simp [hm, hk]
  · have hk : t.count '\n' = 0 := List.count_eq_zero.mpr hm
    refine ⟨rfl, by simp [hm, hk], fun h1 => ?_⟩
    simp [hm, h1, after_last_newline_of_not_mem t hm, add_comm]

/-- C1 fails as stated on 32-bit counters: at column `INT_MAX` the text "a"
(no line break, length 1) leaves `cur_col` at `INT_MIN`, not at the old
column plus the length. -/
theorem advance_pos32_overflow_counterexample :
    (advance_pos32 { sample_fresh with cur_col := 2147483647 } ['a']
        (['a'].length : Nat)).cur_col = -2147483648 ∧
    ¬ ((advance_pos32 { sample_fresh with cur_col := 2147483647 } ['a']
        (['a'].length : Nat)).cur_col =
      ({ sample_fresh with cur_col := 2147483647 } : position).cur_col +
        ((['a'].length : Nat) : Int)) := by
  constructor <;> decide

/-- C20: advancing over `s` and then over `t` gives the same current line
and column as advancing once over `s ++ t`; the recorded previous position is
the old current position in the one-step case and the position after `s` in
the two-step case; advancing over the empty text keeps the current position. -/
theorem advance_pos_compositional (p : position) (s t : List Char) :
    (advance_pos (advance_pos p s s.length) t t.length).cur_line =
      (advance_pos p (s ++ t) (s ++ t).length).cur_line ∧
    (advance_pos (advance_pos p s s.length) t t.length).cur_col =
      (advance_pos p (s ++ t) (s ++ t).length).cur_col ∧
    (advance_pos p (s ++ t) (s ++ t).length).pre_line = p.cur_line ∧
    (advance_pos p (s ++ t) (s ++ t).length).pre_col = p.cur_col ∧
    (advance_pos (advance_pos p s s.length) t t.length).pre_line =
      (advance_pos p s s.length).cur_line ∧
    (advance_pos (advance_pos p s s.length) t t.length).pre_col =
      (advance_pos p s s.length).cur_col ∧
    (advance_pos p [] 0).cur_line = p.cur_line ∧
    (advance_pos p [] 0).cur_col = p.cur_col := by
  have h := advance_pos_append_cur p s t
  refine ⟨h.1, h.2, ?_, ?_, ?_, ?_, ?_, ?_⟩
  · rw [advance_pos_eq]
  · rw [advance_pos_eq]
  · rw [advance_pos_eq (advance_pos p s s.length)]
  · rw [advance_pos_eq (advance_pos p s s.length)]
  · simp [advance_pos]
  · simp [advance_pos]

theorem set_pos_base_some (fn : Option (List Char)) (w : World) (q : position)
    (h : (set_pos_base fn w).1 = some q) :
    q.cur_line = 1 ∧ q.cur_col = 1 ∧ q.pre_line = 1 ∧ q.pre_col = 1 ∧
    q.file = none ∧ q.file_owned = 0 ∧ q.string = none := by
  unfold set_pos_base at h
  rcases ha : astmalloc 0 w with ⟨b, w1⟩
  rw [ha] at h
  cases b with
  | false => simp at h
  | true =>
    cases fn with
    | none =>
      simp only [Option.some.injEq] at h
      subst h
      simp
    | some s =>
      simp only at h
      rcases hc : clone_string s (strlen s) w1 with ⟨c, w2⟩
      rw [hc] at h
      cases c with
      | none => simp at h
      | some c =>
        simp only [Option.some.injEq] at h
        subst h
        simp

theorem advance_pos_well_formed (p : position) (t : List Char) (hp : well_formed p) :
    well_formed (advance_pos p t t.length) := by
  obtain ⟨h1, h2, -, -, -⟩ := hp
  rw [advance_pos_eq]
  unfold well_formed
  by_cases hm : '\n' ∈ t
  · have hk : 1 ≤ t.count '\n' := List.count_pos_iff.mpr hm
    simp only [hm, if_true]
    refine ⟨by omega, by omega, h1, h2, Or.inl (by omega)⟩
  · have hk : t.count '\n' = 0 := List.count_eq_zero.mpr hm
    simp only [hm, if_false, hk]
    refine ⟨by omega, by omega, h1, h2, Or.inr ⟨by simp, by omega⟩⟩

/-- C15: a context created by `set_pos_base` has all four counters equal to
1 and is well formed, and `advance_pos` over any text takes a well-formed
context to a well-formed context. -/
theorem position_well_formed (fn : Option (List Char)) (w : World) (q p : position)
    (t : List Char) (hq : (set_pos_base fn w).1 = some q) (hp : well_formed p) :
    (q.cur_line = 1 ∧ q.cur_col = 1 ∧ q.pre_line = 1 ∧ q.pre_col = 1) ∧
    well_formed q ∧
    well_formed (advance_pos p t t.length) := by
  obtain ⟨a, b, c, d, -⟩ := set_pos_base_some fn w q hq
  refine ⟨⟨a, b, c, d⟩, ?_, advance_pos_well_formed p t hp⟩
  unfold well_formed
  rw [a, b, c, d]
  decide

theorem after_last_newline_eq_zero (t : List Char) (hm : '\n' ∈ t) :
    after_last_newline t = 0 ↔ t.getLast? = some '\n' := by
  rcases List.eq_nil_or_concat t with rfl | ⟨u, c, rfl⟩
  · simp at hm
  · rw [List.concat_eq_append, after_last_newline_snoc]
    by_cases hc : c = '\n' <;> simp [hc]

/-- C17 as amended: after `advance_pos` the current column is 1 if and only
if the last character of the text is a line break, or no line break was
consumed and the old column plus the length is 1. -/
theorem advance_pos_col_one_iff (p : position) (t : List Char) :
    (advance_pos p t t.length).cur_col = 1 ↔
      (t.getLast? = some '\n' ∨ ('\n' ∉ t ∧ p.cur_col + (t.length : Nat) = 1)) := by
  rw [advance_pos_eq]
  by_cases hm : '\n' ∈ t
  · have h := after_last_newline_eq_zero t hm
    simp only [hm, if_true, not_true_eq_false, false_and, or_false]
    rw [← h]
    omega
  · have hl : t.getLast? ≠ some '\n' := fun e => hm (List.mem_of_getLast?_eq_some e)
    simp [hm, hl]

/-- C17 fails as stated: on a context at column 1 the text "\na" contains a
line break and leaves the current column at 2. -/
theorem advance_pos_col_one_counterexample :
    ¬ ((advance_pos sample_fresh ['\n', 'a'] (['\n', 'a'].length : Nat)).cur_col = 1 ↔
        '\n' ∈ ['\n', 'a']) := by
  rw [advance_pos_eq]
  decide

/-- After a lexeme that ends in a line break `cur_col - 1` is 0; on a
context at (1,1) the one-character lexeme "\n" gives line 2 and
`cur_col - 1 = 0`. -/
theorem range_end_column_zero (p : position) (t : List Char) :
    (advance_pos p (t ++ ['\n']) (t ++ ['\n']).length).cur_col - 1 = 0 ∧
    (advance_all sample_fresh [['\n']]).cur_line = 2 ∧
    (advance_all sample_fresh [['\n']]).cur_col - 1 = 0 ∧
    ¬ (1 ≤ (advance_all sample_fresh [['\n']]).cur_col - 1) := by
  refine ⟨?_, ?_, ?_, ?_⟩
  · rw [advance_pos_eq]
    simp [after_last_newline_snoc]
  · simp [advance_all, advance_pos, advance_char, sample_fresh]
  · simp [advance_all, advance_pos, advance_char, sample_fresh]
  · simp [advance_all, advance_pos, advance_char, sample_fresh]

/-! ## The allocator and the constructors -/

theorem after_mallocs_after_mallocs (w : World) (a b : Nat) :
    (w.after_mallocs a).after_mallocs b = w.after_mallocs (a + b) := by
  simp [World.after_mallocs, List.drop_drop, add_comm]

theorem allocs_succeed_after_mallocs (w : World) (n : Nat) (h : allocs_succeed w) :
    allocs_succeed (w.after_mallocs n) := by
  intro b hb
  exact h b (List.mem_of_mem_drop hb)

theorem astmalloc_of_succeed (n : Int) (w : World) (h : allocs_succeed w) :
    astmalloc n w = (true, w.after_mallocs 1) := by
  obtain ⟨sc, yt, ms, op, nf, nb, scr, un, tr⟩ := w
  cases ms with
  | nil => simp [astmalloc, World.after_mallocs]
  | cons b rest =>
    have hb : b = true := h b (by simp)
    simp [astmalloc, World.after_mallocs, hb]

theorem take_c_string_length (s : List Char) :
    s.take (c_string s).length = c_string s := by
  unfold c_string
  induction s with
  | nil => simp
  | cons c cs ih =>
    by_cases hc : (c != NUL) = true
    · simp [List.takeWhile_cons, hc, ih]
    · simp [List.takeWhile_cons, hc]

theorem clone_string_strlen (s : List Char) (w : World) (h : allocs_succeed w) :
    clone_string s (strlen s) w = (some (c_string s), w.after_mallocs 1) := by
  simp [clone_string, astmalloc_of_succeed _ w h, strlen, take_c_string_length]

theorem set_pos_base_of_succeed (s : List Char) (w : World) (h : allocs_succeed w) :
    set_pos_base (some s) w =
      (some { w.uninit with
                filename := some (c_string s)
                pre_line := 1, cur_line := 1, pre_col := 1, cur_col := 1
                file := none, file_owned := 0, string := none },
       w.after_mallocs 2) := by
  have h1 := allocs_succeed_after_mallocs w 1 h
  simp only [set_pos_base, astmalloc_of_succeed _ w h, clone_string_strlen _ _ h1,
    after_mallocs_after_mallocs]
  simp [World.after_mallocs]

theorem set_pos_string_of_succeed (s : List Char) (w : World) (h : allocs_succeed w) :
    set_pos_string s s.length w =
      (some { filename := some ['-']
              cur_line := 1, cur_col := 1, pre_line := 1, pre_col := 1
              buf := w.next_buffer + 1
              file := none, file_owned := 0
              string := some (s ++ [YY_END_OF_BUFFER_CHAR, YY_END_OF_BUFFER_CHAR]) },
       { w.after_mallocs 3 with
           next_buffer := w.next_buffer + 1
           trace := w.trace ++
             [Event.yy_scan_buffer (s ++ [YY_END_OF_BUFFER_CHAR, YY_END_OF_BUFFER_CHAR])
               ((s.length : Int) + 2) (w.next_buffer + 1)] }) := by
  have h2 := allocs_succeed_after_mallocs w 2 h
  have hc : c_string ['-'] = ['-'] := by decide
  simp only [set_pos_string, set_pos_base_of_succeed _ w h, astmalloc_of_succeed _ _ h2,
    after_mallocs_after_mallocs, hc]
  simp [World.after_mallocs, yy_scan_buffer, World.log]

theorem set_pos_file_unowned_of_succeed (fn : List Char) (f : Option FILE) (w : World)
    (h : allocs_succeed w) :
    set_pos_file_unowned (some fn) f w =
      (some { filename := some (c_string fn)
              cur_line := 1, cur_col := 1, pre_line := 1, pre_col := 1
              buf := w.next_buffer + 1
              file := f, file_owned := 0
              string := none },
       { w.after_mallocs 2 with
           next_buffer := w.next_buffer + 1
           trace := w.trace ++
             [Event.yy_create_buffer f (w.next_buffer + 1),
              Event.yy_switch_to_buffer (w.next_buffer + 1)] }) := by
  simp only [set_pos_file_unowned, set_pos_base_of_succeed _ w h]
  simp [World.after_mallocs, yy_create_buffer, yy_switch_to_buffer, World.log]

theorem set_pstack_self (w : World) (h : w.scanner.pstack = []) : w.set_pstack [] = w := by
  obtain ⟨⟨ps, lt⟩, yt, ms, op, nf, nb, scr, un, tr⟩ := w
  simp only at h
  simp [World.set_pstack, h]

theorem is_scanning_eq_zero_iff (w : World) : is_scanning w = 0 ↔ w.scanner.pstack = [] := by
  unfold is_scanning
  by_cases h : w.scanner.pstack = [] <;> simp [h]

/-! ## Beginning a session -/

/-- C6: `on_string` on an idle scanner, all allocations succeeding, returns
true and leaves exactly one context on the stack: display name "-", no file,
`file_owned = 0`, current and previous position (1,1), holding a copy of the
text (followed by the two end-of-buffer characters) that the engine was
given to scan; `is_scanning` is then true. -/
theorem on_string_begins (text : List Char) (w : World)
    (hidle : is_scanning w = 0) (halloc : allocs_succeed w) :
    (on_string text text.length w).1 = 1 ∧
    (on_string text text.length w).2.scanner.pstack =
      [{ filename := some ['-']
         cur_line := 1, cur_col := 1, pre_line := 1, pre_col := 1
         buf := w.next_buffer + 1
         file := none, file_owned := 0
         string := some (text ++ [YY_END_OF_BUFFER_CHAR, YY_END_OF_BUFFER_CHAR]) }] ∧
    (on_string text text.length w).2.trace = w.trace ++
      [Event.yy_scan_buffer (text ++ [YY_END_OF_BUFFER_CHAR, YY_END_OF_BUFFER_CHAR])
        ((text.length : Int) + 2) (w.next_buffer + 1)] ∧
    is_scanning (on_string text text.length w).2 = 1 := by
  have hp : w.scanner.pstack = [] := (is_scanning_eq_zero_iff w).mp hidle
  simp [on_string, hp, set_pos_string_of_succeed text w halloc, World.set_pstack,
    is_scanning]

/-- C9: while a session is active, `on_string`, `on_file_name` and
`on_file_pointer` return false and change nothing: the whole state (stack,
last-token code, script of the allocator, trace of library and engine calls)
is the one before the call. -/
theorem begin_while_scanning (w : World) (text : List Char) (length : Int)
    (filename : List Char) (name : Option (List Char)) (file : Option FILE)
    (hscan : is_scanning w ≠ 0) :
    on_string text length w = (0, w) ∧
    on_file_name filename w = some (0, w) ∧
    on_file_pointer name file w = (0, w) := by
  simp [on_string, on_file_name, on_file_pointer, hscan]

/-- C10: `on_file_name` on an idle scanner with a path that `fopen` does not
open returns false; the only effect is the failed `fopen` call, no context
is created and `is_scanning` stays false. -/
theorem on_file_name_open_failure (filename : List Char) (w : World)
    (hidle : is_scanning w = 0) (hopen : c_string filename ∉ w.openable) :
    on_file_name filename w = some (0, w.log (Event.fopen (c_string filename) none)) ∧
    (w.log (Event.fopen (c_string filename) none)).scanner = w.scanner ∧
    is_scanning (w.log (Event.fopen (c_string filename) none)) = 0 := by
  have hp : w.scanner.pstack = [] := (is_scanning_eq_zero_iff w).mp hidle
  have hl : (w.log (Event.fopen (c_string filename) none)).scanner.pstack = [] := hp
  refine ⟨?_, rfl, (is_scanning_eq_zero_iff _).mpr hl⟩
  simp [on_file_name, hidle, set_pos_file_owned, fopen, hopen, set_pstack_self _ hl]

/-! ## Popping at end of input -/

theorem close_pos_world (p : position) (w : World) :
    (close_pos p w).2 = { w with trace := (close_pos p w).2.trace } := by
  obtain ⟨fn, cl, cc, pl, pc, buf, file, fo, str⟩ := p
  cases fn <;> cases file <;> cases str <;> by_cases hfo : fo = 0 <;>
    by_cases hb : buf = 0 <;>
    simp [close_pos, hfo, hb, World.log, fclose, yy_delete_buffer]

theorem close_pos_scanner (p : position) (w : World) :
    (close_pos p w).2.scanner = w.scanner := by
  rw [close_pos_world]

theorem yywrap_cons (w : World) (p : position) (next : List position)
    (h : w.scanner.pstack = p :: next) :
    ∃ w1, yywrap w = some (if next = [] then 1 else 0, w1) ∧
      w1.scanner.pstack = next ∧
      ∀ q rest, next = q :: rest →
        w1.trace.getLast? = some (Event.yy_switch_to_buffer q.buf) := by
  cases next with
  | nil =>
    refine ⟨_, by simp only [yywrap, h]; rfl, ?_, by simp⟩
    simp [World.log, close_pos_scanner, World.set_pstack]
  | cons q rest =>
    refine ⟨_, by simp only [yywrap, h]; rfl, ?_, ?_⟩
    · simp [World.log, close_pos_scanner, World.set_pstack, yy_switch_to_buffer]
    · intro q1 rest1 e
      obtain ⟨rfl, rfl⟩ := List.cons.inj e
      simp [World.log, yy_switch_to_buffer]

theorem yywrap_times_succ (k : Nat) (w wk w1 : World) (rs : List Int) (r : Int)
    (hk : yywrap_times k w = some (rs, wk)) (hr : yywrap wk = some (r, w1)) :
    yywrap_times (k + 1) w = some (rs ++ [r], w1) := by
  induction k generalizing w rs with
  | zero =>
    simp only [yywrap_times, Option.some.injEq, Prod.mk.injEq] at hk
    obtain ⟨rfl, rfl⟩ := hk
    simp [yywrap_times, hr]
  | succ k ih =>
    rw [yywrap_times] at hk
    cases h1 : yywrap w with
    | none => simp [h1] at hk
    | some x =>
      obtain ⟨r0, w0⟩ := x
      cases h2 : yywrap_times k w0 with
      | none => simp [h1, h2] at hk
      | some y =>
        obtain ⟨rs0, w2⟩ := y
        simp only [h1, h2, Option.some.injEq, Prod.mk.injEq] at hk
        obtain ⟨rfl, rfl⟩ := hk
        have := ih w0 rs0 h2
        rw [yywrap_times, h1]
        simp [this]

/-- C5: on a stack of depth `n ≥ 1`, for every `k < n`: the first `k`
calls of `yywrap` all return 0 and leave the stack without its top `k`
contexts, the others unchanged and in order; call `k + 1` removes exactly
the next top; when contexts remain it returns 0 and its last engine call
switches to the new top's buffer, and when none remains (call `n`) it
returns 1 and `is_scanning` is false. -/
theorem yywrap_lifo (w : World) (k : Nat) (hk : k < w.scanner.pstack.length) :
    ∃ wk r w1,
      yywrap_times k w = some (List.replicate k 0, wk) ∧
      wk.scanner.pstack = w.scanner.pstack.drop k ∧
      yywrap wk = some (r, w1) ∧
      yywrap_times (k + 1) w = some (List.replicate k 0 ++ [r], w1) ∧
      w1.scanner.pstack = w.scanner.pstack.drop (k + 1) ∧
      (∀ q rest, w.scanner.pstack.drop (k + 1) = q :: rest →
        r = 0 ∧ w1.trace.getLast? = some (Event.yy_switch_to_buffer q.buf)) ∧
      (w.scanner.pstack.drop (k + 1) = [] → r = 1 ∧ is_scanning w1 = 0) := by
  induction k generalizing w with
  | zero =>
    cases hs : w.scanner.pstack with
    | nil => simp [hs] at hk
    | cons p next =>
      obtain ⟨w1, h1, h2, h3⟩ := yywrap_cons w p next hs
      refine ⟨w, _, w1, rfl, by simp [hs], h1, by simp [yywrap_times, h1], by simpa using h2, ?_, ?_⟩
      · intro q rest e
        have e2 : next = q :: rest := by simpa using e
        exact ⟨by simp [e2], h3 q rest e2⟩
      · intro e
        have e2 : next = [] := by simpa using e
        exact ⟨by simp [e2], (is_scanning_eq_zero_iff w1).mpr (h2.trans e2)⟩
  | succ k ih =>
    cases hs : w.scanner.pstack with
    | nil => simp [hs] at hk
    | cons p next =>
      have hk2 : k < next.length := by simpa [hs] using hk
      have hne : next ≠ [] := by
        intro e; simp [e] at hk2
      obtain ⟨w0, h1, h2, -⟩ := yywrap_cons w p next hs
      simp only [hne, if_false] at h1
      obtain ⟨wk, r, w1, a1, a2, a3, a4, a5, a6, a7⟩ := ih w0 (by rw [h2]; exact hk2)
      rw [h2] at a2 a5 a6 a7
      refine ⟨wk, r, w1, ?_, by simpa using a2, a3, ?_, by simpa using a5, ?_, ?_⟩
      · rw [yywrap_times, h1]
        simp [a1, List.replicate_succ]
      · rw [yywrap_times, h1]
        simp [a4, List.replicate_succ]
      · simpa using a6
      · simpa using a7

/-! ## Shutting down -/

theorem close_pos_trace (p : position) (w : World) :
    (close_pos p w).2 = { w with trace := w.trace ++ close_events p } := by
  obtain ⟨fn, cl, cc, pl, pc, buf, file, fo, str⟩ := p
  cases fn <;> cases file <;> cases str <;> by_cases hfo : fo = 0 <;>
    by_cases hb : buf = 0 <;>
    simp [close_pos, close_events, hfo, hb, World.log, fclose, yy_delete_buffer]

theorem close_scanner_loop_eq (s : List position) (w : World) (h : w.scanner.pstack = s) :
    close_scanner_loop s w =
      { w with
        scanner := { pstack := [], last_token := w.scanner.last_token }
        trace := w.trace ++ released s } := by
  induction s generalizing w with
  | nil =>
    obtain ⟨⟨ps, lt⟩, yt, ms, op, nf, nb, scr, un, tr⟩ := w
    simp only at h
    simp [close_scanner_loop, released, h]
  | cons p next ih =>
    rw [close_scanner_loop, ih _ (by simp [World.set_pstack]), close_pos_trace]
    simp [World.set_pstack, World.log, released]

theorem close_scanner_eq (w : World) :
    close_scanner w =
      (1, { w with
            scanner :=
              { pstack := []
                last_token := if w.scanner.pstack = [] then w.scanner.last_token else 0 }
            trace := w.trace ++ released w.scanner.pstack }) := by
  by_cases hp : w.scanner.pstack = []
  · obtain ⟨⟨ps, lt⟩, yt, ms, op, nf, nb, scr, un, tr⟩ := w
    simp only at hp
    simp [close_scanner, is_scanning, hp, released]
  · simp [close_scanner, is_scanning, hp, close_scanner_loop_eq _ w rfl, World.set_last_token]

theorem closed_files_append (a b : List Event) :
    closed_files (a ++ b) = closed_files a ++ closed_files b := by
  simp [closed_files, List.filterMap_append]

theorem deleted_buffers_append (a b : List Event) :
    deleted_buffers (a ++ b) = deleted_buffers a ++ deleted_buffers b := by
  simp [deleted_buffers, List.filterMap_append]

theorem closed_files_close_events (p : position) :
    closed_files (close_events p) = if p.file_owned ≠ 0 then p.file.toList else [] := by
  obtain ⟨fn, cl, cc, pl, pc, buf, file, fo, str⟩ := p
  cases fn <;> cases file <;> cases str <;> by_cases hfo : fo = 0 <;>
    by_cases hb : buf = 0 <;>
    simp [close_events, closed_files, hfo, hb]

theorem deleted_buffers_close_events (p : position) :
    deleted_buffers (close_events p) = if p.buf ≠ 0 then [p.buf] else [] := by
  obtain ⟨fn, cl, cc, pl, pc, buf, file, fo, str⟩ := p
  cases fn <;> cases file <;> cases str <;> by_cases hfo : fo = 0 <;>
    by_cases hb : buf = 0 <;>
    simp [close_events, deleted_buffers, hfo, hb]

theorem freed_positions_close_events (p : position) :
    freed_positions (close_events p) = 0 := by
  obtain ⟨fn, cl, cc, pl, pc, buf, file, fo, str⟩ := p
  cases fn <;> cases file <;> cases str <;> by_cases hfo : fo = 0 <;>
    by_cases hb : buf = 0 <;>
    simp [close_events, freed_positions, hfo, hb]

theorem closed_files_released (s : List position) :
    closed_files (released s) =
      (s.map (fun p => if p.file_owned ≠ 0 then p.file.toList else [])).flatten := by
  induction s with
  | nil => simp [released, closed_files]
  | cons p next ih =>
    simp only [released, closed_files_append, closed_files_close_events, ih,
      List.map_cons, List.flatten_cons]
    simp [closed_files]

theorem deleted_buffers_released (s : List position) :
    deleted_buffers (released s) = (s.map position.buf).filter (fun h => h ≠ 0) := by
  induction s with
  | nil => simp [released, deleted_buffers]
  | cons p next ih =>
    simp only [released, deleted_buffers_append, deleted_buffers_close_events, ih,
      List.map_cons]
    by_cases hb : p.buf = 0 <;> simp [deleted_buffers, hb, List.filter_cons]

theorem freed_positions_released (s : List position) :
    freed_positions (released s) = s.length := by
  induction s with
  | nil => simp [released, freed_positions]
  | cons p next ih =>
    have h := freed_positions_close_events p
    simp only [freed_positions] at h ih ⊢
    simp [released, List.count_append, h, ih, add_comm]

/-- C11: `close_scanner` always returns true, and a second call right after
the first returns true and leaves the whole state, trace of library and
engine calls included, exactly as the first call left it. -/
theorem close_scanner_idempotent (w : World) :
    (close_scanner w).1 = 1 ∧
    close_scanner (close_scanner w).2 = (1, (close_scanner w).2) ∧
    (close_scanner (close_scanner w).2).2.trace = (close_scanner w).2.trace := by
  have h2 : close_scanner (close_scanner w).2 = (1, (close_scanner w).2) := by
    rw [close_scanner_eq w]
    simp [close_scanner, is_scanning]
  refine ⟨by rw [close_scanner_eq], h2, by rw [h2]⟩

/-- C12 as amended: on a stack of any depth `d ≥ 0` `close_scanner` returns
true and leaves the stack empty and `is_scanning` false; the calls it makes
are those that release the `d` contexts top first: each non-null buffer
handle is deleted once, each owned stream is closed once, each context is
freed once; the last-token code becomes 0 when `d ≥ 1` and keeps its value
when `d = 0`. -/
theorem close_scanner_releases (w : World) :
    (close_scanner w).1 = 1 ∧
    (close_scanner w).2.scanner.pstack = [] ∧
    is_scanning (close_scanner w).2 = 0 ∧
    (close_scanner w).2.scanner.last_token =
      (if w.scanner.pstack = [] then w.scanner.last_token else 0) ∧
    (close_scanner w).2.trace = w.trace ++ released w.scanner.pstack ∧
    deleted_buffers (released w.scanner.pstack) =
      (w.scanner.pstack.map position.buf).filter (fun h => h ≠ 0) ∧
    closed_files (released w.scanner.pstack) =
      (w.scanner.pstack.map
        (fun p => if p.file_owned ≠ 0 then p.file.toList else [])).flatten ∧
    freed_positions (released w.scanner.pstack) = w.scanner.pstack.length := by
  rw [close_scanner_eq]
  exact ⟨rfl, rfl, rfl, rfl, rfl, deleted_buffers_released _, closed_files_released _,
    freed_positions_released _⟩

/-- C12 fails as stated at depth 0: the idle scanner that `on_string`,
`read_token` (lexeme code 7) and `yywrap` leave behind has last-token code 7,
and `close_scanner` returns true without resetting it. -/
theorem close_scanner_idle_counterexample :
    ∃ w1 w2,
      read_token (on_string ['a', 'b', 'c'] 3 sample_idle).2 = some (none, w1) ∧
      yywrap w1 = some (1, w2) ∧
      w2.scanner.pstack = [] ∧
      (close_scanner w2).1 = 1 ∧
      (close_scanner w2).2.scanner.last_token = 7 ∧
      (close_scanner w2).2.scanner.last_token ≠ 0 :=
  ⟨_, _, rfl, rfl, rfl, rfl, rfl, by decide⟩

theorem fclose_mem_close_events (q : position) (g : FILE) :
    Event.fclose g ∈ close_events q ↔ (q.file = some g ∧ q.file_owned ≠ 0) := by
  obtain ⟨fn, cl, cc, pl, pc, buf, file, fo, str⟩ := q
  cases fn <;> cases file <;> cases str <;> by_cases hfo : fo = 0 <;>
    by_cases hb : buf = 0 <;>
    simp [close_events, hfo, hb, eq_comm]

theorem not_mem_closed_files_released (s : List position) (f : FILE)
    (h : ∀ p ∈ s, p.file = some f → p.file_owned = 0) :
    f ∉ closed_files (released s) := by
  rw [closed_files_released]
  intro hm
  obtain ⟨l, hl, hf⟩ := List.mem_flatten.mp hm
  obtain ⟨p, hp, rfl⟩ := List.mem_map.mp hl
  by_cases ho : p.file_owned = 0
  · simp [ho] at hf
  · simp only [ne_eq, ho, not_false_eq_true, if_true, Option.mem_toList,
      Option.mem_def] at hf
    exact ho (h p hp hf)

theorem yywrap_trace (w : World) (p : position) (next : List position)
    (h : w.scanner.pstack = p :: next) :
    ∃ r w2, yywrap w = some (r, w2) ∧
      w2.trace = w.trace ++ close_events p ++ [Event.free_position] ++
        (match next with
          | [] => []
          | q :: _ => [Event.yy_switch_to_buffer q.buf]) := by
  cases next with
  | nil =>
    refine ⟨_, _, by simp only [yywrap, h]; rfl, ?_⟩
    rw [World.log, close_pos_trace]
    simp [World.set_pstack]
  | cons q rest =>
    refine ⟨_, _, by simp only [yywrap, h]; rfl, ?_⟩
    rw [yy_switch_to_buffer, World.log, World.log, close_pos_trace]
    simp [World.set_pstack]

theorem set_pos_file_unowned_some (fn : Option (List Char)) (f : Option FILE) (w : World)
    (q : position) (h : (set_pos_file_unowned fn f w).1 = some q) :
    q.file = f ∧ q.file_owned = 0 := by
  unfold set_pos_file_unowned at h
  rcases hs : set_pos_base fn w with ⟨o, w1⟩
  rw [hs] at h
  cases o with
  | none => simp at h
  | some p0 =>
    have hb := set_pos_base_some fn w p0 (by rw [hs])
    simp only [Option.some.injEq] at h
    subst h
    exact ⟨rfl, hb.2.2.2.2.2.1⟩

/-- C14: the session that `on_file_pointer` begins holds the caller's
stream `f` in a context with `file_owned = 0`; `advance_pos` changes neither
field; on every stack whose contexts holding `f` are not owned, neither
`yywrap` nor `close_scanner` closes `f`, in particular not on the session
just begun; and `close_pos` closes a stream `g` exactly when the context
holds `g` and `file_owned` is set. -/
theorem caller_file_not_closed (name : Option (List Char)) (f : FILE) (w : World)
    (q : position) (v : World) (g : FILE) (t : List Char) (len : Int)
    (hidle : is_scanning w = 0) (hok : (on_file_pointer name (some f) w).1 = 1) :
    (∃ p, (on_file_pointer name (some f) w).2.scanner.pstack = [p] ∧
      p.file = some f ∧ p.file_owned = 0) ∧
    ((advance_pos q t len).file = q.file ∧
      (advance_pos q t len).file_owned = q.file_owned) ∧
    (∀ u : World, (∀ p ∈ u.scanner.pstack, p.file = some f → p.file_owned = 0) →
      (closed_files (close_scanner u).2.trace).count f = (closed_files u.trace).count f ∧
      ∀ r u2, yywrap u = some (r, u2) →
        (closed_files u2.trace).count f = (closed_files u.trace).count f) ∧
    (closed_files (close_scanner (on_file_pointer name (some f) w).2).2.trace).count f =
      (closed_files (on_file_pointer name (some f) w).2.trace).count f ∧
    (∃ r u2, yywrap (on_file_pointer name (some f) w).2 = some (r, u2) ∧
      (closed_files u2.trace).count f =
        (closed_files (on_file_pointer name (some f) w).2.trace).count f) ∧
    (Event.fclose g ∈ (close_pos q v).2.trace ↔
      (Event.fclose g ∈ v.trace ∨ (q.file = some g ∧ q.file_owned ≠ 0))) := by
  have hp : w.scanner.pstack = [] := (is_scanning_eq_zero_iff w).mp hidle
  have h1 : ∃ p, (on_file_pointer name (some f) w).2.scanner.pstack = [p] ∧
      p.file = some f ∧ p.file_owned = 0 := by
    unfold on_file_pointer at hok ⊢
    simp only [is_scanning, hp, if_true, ne_eq, not_true_eq_false, if_false] at hok ⊢
    rcases hs : set_pos_file_unowned name (some f) w with ⟨o, w1⟩
    rw [hs] at hok
    cases o with
    | none => simp at hok
    | some p =>
      have := set_pos_file_unowned_some name (some f) w p (by rw [hs])
      exact ⟨p, by simp [World.set_pstack], this.1, this.2⟩
  have h3 : ∀ u : World, (∀ p ∈ u.scanner.pstack, p.file = some f → p.file_owned = 0) →
      (closed_files (close_scanner u).2.trace).count f = (closed_files u.trace).count f ∧
      ∀ r u2, yywrap u = some (r, u2) →
        (closed_files u2.trace).count f = (closed_files u.trace).count f := by
    intro u hu
    constructor
    · rw [close_scanner_eq]
      simp only [closed_files_append, List.count_append]
      rw [List.count_eq_zero.mpr (not_mem_closed_files_released _ f hu)]
      simp
    · intro r u2 hy
      cases hs : u.scanner.pstack with
      | nil => simp [yywrap, hs] at hy
      | cons top rest =>
        obtain ⟨r1, u3, h1, h2⟩ := yywrap_trace u top rest hs
        rw [h1] at hy
        simp only [Option.some.injEq, Prod.mk.injEq] at hy
        obtain ⟨-, rfl⟩ := hy
        have htop : f ∉ closed_files (close_events top) := by
          rw [closed_files_close_events]
          by_cases ho : top.file_owned = 0
          · simp [ho]
          · simp only [ne_eq, ho, not_false_eq_true, if_true, Option.mem_toList,
              Option.mem_def]
            intro hf
            exact ho (hu top (by simp [hs]) hf)
        rw [h2]
        simp only [closed_files_append, List.count_append,
          List.count_eq_zero.mpr htop]
        cases rest <;> simp [closed_files]
  have hinv : ∀ p ∈ (on_file_pointer name (some f) w).2.scanner.pstack,
      p.file = some f → p.file_owned = 0 := by
    obtain ⟨p0, e, -, ho⟩ := h1
    intro p hmem _
    rw [e, List.mem_singleton] at hmem
    rw [hmem]; exact ho
  refine ⟨h1, ?_, h3, (h3 _ hinv).1, ?_, ?_⟩
  · have hfold : ∀ (cs : List Char) (a : position),
        (cs.foldl advance_char a).file = a.file ∧
        (cs.foldl advance_char a).file_owned = a.file_owned := by
      intro cs
      induction cs with
      | nil => intro a; exact ⟨rfl, rfl⟩
      | cons c cs ih =>
        intro a
        have h1 := ih (advance_char a c)
        have h2 : (advance_char a c).file = a.file ∧
            (advance_char a c).file_owned = a.file_owned := by
          unfold advance_char
          split <;> exact ⟨rfl, rfl⟩
        exact ⟨h1.1.trans h2.1, h1.2.trans h2.2⟩
    exact hfold _ _
  · obtain ⟨p0, e, -, -⟩ := h1
    obtain ⟨r, u2, hy, -⟩ := yywrap_trace _ p0 [] e
    exact ⟨r, u2, hy, (h3 _ hinv).2 r u2 hy⟩
  · rw [close_pos_trace]
    simp [fclose_mem_close_events]

/-! ## File contexts -/

theorem set_pos_file_owned_of_succeed (fn : List Char) (w : World)
    (halloc : allocs_succeed w) (hopen : c_string fn ∈ w.openable) :
    set_pos_file_owned fn w = some (none, w.after_file_context (c_string fn)) := by
  have h1 : allocs_succeed
      ({ w with next_file := w.next_file + 1 }.log
        (Event.fopen (c_string fn) (some (w.next_file + 1)))) := halloc
  simp only [set_pos_file_owned, fopen, hopen, if_true,
    set_pos_file_unowned_of_succeed fn _ _ h1]
  simp [World.after_file_context, World.after_mallocs, World.log]

/-- C7 (the code at a path that opens): `on_file_name` on an idle scanner,
all allocations succeeding, opens the file, creates and switches to an
engine buffer, and then returns false with the stack still empty: the
context it built is not returned by `set_pos_file_owned`, and the opened
stream is not closed. -/
theorem on_file_name_reports_failure (filename : List Char) (w : World)
    (hidle : is_scanning w = 0) (halloc : allocs_succeed w)
    (hopen : c_string filename ∈ w.openable) :
    on_file_name filename w = some (0, w.after_file_context (c_string filename)) ∧
    (w.after_file_context (c_string filename)).scanner.pstack = [] ∧
    is_scanning (w.after_file_context (c_string filename)) = 0 ∧
    Event.fopen (c_string filename) (some (w.next_file + 1)) ∈
      (w.after_file_context (c_string filename)).trace ∧
    (w.trace.count (Event.fclose (w.next_file + 1)) =
      (w.after_file_context (c_string filename)).trace.count
        (Event.fclose (w.next_file + 1))) := by
  have hp : w.scanner.pstack = [] := (is_scanning_eq_zero_iff w).mp hidle
  have hq : (w.after_file_context (c_string filename)).scanner.pstack = [] := hp
  refine ⟨?_, hq, (is_scanning_eq_zero_iff _).mpr hq, ?_, ?_⟩
  · simp [on_file_name, hidle, set_pos_file_owned_of_succeed filename w halloc hopen,
      set_pstack_self _ hq]
  · simp [World.after_file_context]
  · simp [World.after_file_context, List.count_cons]

/-- C8 (the code at a path that opens): `push_position`, all allocations
succeeding, opens the file and creates an engine buffer, then returns false
and leaves the stack as it was; `push_position2` on a slice does the same. -/
theorem push_position_reports_failure (fn : List Char) (w : World)
    (halloc : allocs_succeed w) (hopen : c_string fn ∈ w.openable) :
    push_position fn w = some (0, w.after_file_context (c_string fn)) ∧
    (w.after_file_context (c_string fn)).scanner.pstack = w.scanner.pstack ∧
    (∃ w1, push_position2 fn fn.length w = some (0, w1) ∧
      w1.scanner.pstack = w.scanner.pstack) := by
  have h1 := allocs_succeed_after_mallocs w 1 halloc
  have hopen1 : c_string fn ∈ (w.after_mallocs 1).openable := hopen
  refine ⟨?_, rfl, ?_⟩
  · simp [push_position, set_pos_file_owned_of_succeed fn w halloc hopen]
  · refine ⟨((w.after_mallocs 1).after_file_context (c_string fn)).log
      (Event.free_chars fn), ?_, rfl⟩
    simp only [push_position2, astmalloc_of_succeed _ w halloc, push_position,
      Int.toNat_ofNat, List.take_length,
      set_pos_file_owned_of_succeed fn _ h1 hopen1]

/-! ## Ranges and tokens -/

theorem range_of_position_null (s : List position) (w : World) :
    range_of_position s w = some (range_ptr.null, w) := by
  induction s with
  | nil => rfl
  | cons p next ih => simp [range_of_position, ih]

theorem astmalloc_scanner (n : Int) (w : World) :
    (astmalloc n w).2.scanner = w.scanner := by
  unfold astmalloc
  split <;> rfl

theorem make_token_null (w : World) :
    ∃ w1, make_token w = some (none, w1) ∧ w1.scanner = w.scanner := by
  have hs := astmalloc_scanner 0 w
  unfold make_token
  rcases h : astmalloc 0 w with ⟨b, w0⟩
  rw [h] at hs
  cases b with
  | false => exact ⟨w0, rfl, hs⟩
  | true => exact ⟨w0.log Event.free_token, by simp [range_of_position_null], hs⟩

/-- C4 (the code on a stack of depth `d ≥ 1`): the pointer that
`range_of_position` returns points to a chain of no ranges, so the chain
does not have `d` ranges. -/
theorem range_of_position_length (p : position) (rest : List position) (w : World) :
    (range_of_position (p :: rest) w).map (fun r => r.1.length) = some 0 ∧
    (range_of_position (p :: rest) w).map (fun r => r.1.length) ≠
      some (p :: rest).length := by
  simp [range_of_position_null, range_ptr.length]

/-- C2 (the code on a string source): after `on_string` on an idle scanner,
when the engine's first lexeme has a non-zero code and no line break,
`read_token` advances the context to previous position (1,1) and current
position (1, n + 1), so that the range would be (1,1)-(1,n), and returns no
token. -/
theorem read_token_after_on_string (w : World) (text lexeme : List Char) (code : Int)
    (rest : List Match) (hidle : is_scanning w = 0) (halloc : allocs_succeed w)
    (hs : w.script = Match.lexeme code lexeme :: rest) (hc : code ≠ 0)
    (hnl : '\n' ∉ lexeme) :
    ∃ w1, read_token (on_string text text.length w).2 = some (none, w1) ∧
      w1.scanner.last_token = code ∧
      w1.scanner.pstack =
        [{ filename := some ['-']
           cur_line := 1, cur_col := (lexeme.length : Int) + 1, pre_line := 1, pre_col := 1
           buf := w.next_buffer + 1
           file := none, file_owned := 0
           string := some (text ++ [YY_END_OF_BUFFER_CHAR, YY_END_OF_BUFFER_CHAR]) }] := by
  have hp : w.scanner.pstack = [] := (is_scanning_eq_zero_iff w).mp hidle
  simp only [on_string, hidle, ne_eq, not_true_eq_false, if_false,
    set_pos_string_of_succeed text w halloc]
  simp only [read_token, is_scanning, World.set_pstack, yylex, World.log, World.after_mallocs,
    hs, yylex_from, World.set_last_token, ADVANCE, hc, if_false, reduceCtorEq]
  refine (make_token_null _).elim fun w1 hw1 => ⟨w1, hw1.1, ?_⟩
  rw [hw1.2]
  simp [advance_pos_eq, hnl, List.count_eq_zero.mpr hnl, add_comm]

theorem yylex_from_defined (ms : List Match) (w : World) (h : w.scanner.pstack ≠ []) :
    ∃ code w1, yylex_from ms w = some (code, w1) ∧
      (code ≠ 0 → w1.scanner.pstack ≠ []) := by
  induction ms generalizing w with
  | nil => exact ⟨0, _, rfl, fun h0 => absurd rfl h0⟩
  | cons m rest ih =>
    cases m with
    | lexeme code text => exact ⟨code, _, rfl, fun _ => h⟩
    | eof =>
      cases hs : w.scanner.pstack with
      | nil => exact absurd hs h
      | cons p next =>
        have hs2 : ({ w with script := rest } : World).scanner.pstack = p :: next := hs
        obtain ⟨w1, h1, h2, -⟩ := yywrap_cons _ p next hs2
        by_cases hn : next = []
        · refine ⟨0, w1, ?_, fun h0 => absurd rfl h0⟩
          simp [yylex_from, h1, hn]
        · obtain ⟨code, w2, h3, h4⟩ := ih w1 (by rw [h2]; exact hn)
          refine ⟨code, w2, ?_, h4⟩
          simp [yylex_from, h1, hn, h3]

theorem read_token_null (w : World) : ∃ w1, read_token w = some (none, w1) := by
  unfold read_token
  by_cases hi : is_scanning w = 0
  · exact ⟨w, by simp [hi]⟩
  · have hp : (w.log Event.yylex).scanner.pstack ≠ [] :=
      fun e => hi ((is_scanning_eq_zero_iff w).mpr e)
    obtain ⟨code, w1, h1, h2⟩ := yylex_from_defined w.script _ hp
    simp only [hi, if_false, yylex, h1]
    by_cases hc : code = 0
    · exact ⟨w1.set_last_token 0, by simp [hc]⟩
    · have hq := h2 hc
      simp only [hc, if_false]
      cases hs : w1.scanner.pstack with
      | nil => exact absurd hs hq
      | cons p next =>
        have ha : ADVANCE (w1.set_last_token code) =
            some ((w1.set_last_token code).set_pstack
              (advance_pos p (w1.set_last_token code).yytext
                (w1.set_last_token code).yytext.length :: next)) := by
          simp [ADVANCE, World.set_last_token, hs]
        rw [ha]
        obtain ⟨w3, h3, -⟩ := make_token_null
          ((w1.set_last_token code).set_pstack
            (advance_pos p (w1.set_last_token code).yytext
              (w1.set_last_token code).yytext.length :: next))
        exact ⟨w3, h3⟩

/-- C19: `range_of_position` returns the null pointer for every stack, of
any depth, and `make_token`, `read_token` and `last_token` return no token
in every state, whatever the engine matches. -/
theorem no_token_in_any_state (s : List position) (w : World) :
    range_of_position s w = some (range_ptr.null, w) ∧
    (∃ w1, make_token w = some (none, w1)) ∧
    (∃ w1, read_token w = some (none, w1)) ∧
    (∃ w1, last_token w = some (none, w1)) := by
  refine ⟨range_of_position_null s w, ?_, read_token_null w, ?_⟩
  · obtain ⟨w1, h1, -⟩ := make_token_null w
    exact ⟨w1, h1⟩
  · unfold last_token
    split
    · exact ⟨w, rfl⟩
    · obtain ⟨w1, h1, -⟩ := make_token_null w
      exact ⟨w1, h1⟩

/-! ## Operations that need a session -/

/-- C13 as amended: on an idle scanner `read_token` and `last_token` return
null and leave the whole state, trace included, unchanged; `last_token` does
the same whenever the last-token code is 0; `push_position` and
`push_position2` make no session check and, when the file does not open,
return false with the stack still empty and nothing but the failed `fopen`
(and the release of the name buffer) done. -/
theorem idle_operations (w v : World) (fn start : List Char) (len : Int)
    (hidle : is_scanning w = 0) (hv : v.scanner.last_token = 0)
    (hfn : c_string fn ∉ w.openable)
    (hstart : c_string (start.take len.toNat) ∉ w.openable) :
    read_token w = some (none, w) ∧
    last_token w = some (none, w) ∧
    last_token v = some (none, v) ∧
    push_position fn w = some (0, w.log (Event.fopen (c_string fn) none)) ∧
    is_scanning (w.log (Event.fopen (c_string fn) none)) = 0 ∧
    (∃ w1, push_position2 start len w = some (0, w1) ∧ w1.scanner = w.scanner ∧
      is_scanning w1 = 0 ∧
      (w1.trace = w.trace ∨
       w1.trace = w.trace ++
         [Event.fopen (c_string (start.take len.toNat)) none,
          Event.free_chars (start.take len.toNat)])) := by
  refine ⟨by simp [read_token, hidle], by simp [last_token, hidle],
    by simp [last_token, hv], ?_, ?_, ?_⟩
  · simp [push_position, set_pos_file_owned, fopen, hfn]
  · exact hidle
  · unfold push_position2
    rcases ha : astmalloc (len + 1) w with ⟨b, w0⟩
    have hsc : w0.scanner = w.scanner := by
      have := astmalloc_scanner (len + 1) w
      rw [ha] at this
      exact this
    have hop : w0.openable = w.openable ∧ w0.trace = w.trace := by
      unfold astmalloc at ha
      split at ha <;> (simp only [Prod.mk.injEq] at ha; obtain ⟨-, rfl⟩ := ha; exact ⟨rfl, rfl⟩)
    have hi0 : is_scanning w0 = 0 := by
      unfold is_scanning at hidle ⊢
      rw [hsc]; exact hidle
    cases b with
    | false => exact ⟨w0, rfl, hsc, hi0, Or.inl hop.2⟩
    | true =>
      have hstart0 : c_string (start.take len.toNat) ∉ w0.openable := by
        rw [hop.1]; exact hstart
      refine ⟨(w0.log (Event.fopen (c_string (start.take len.toNat)) none)).log
          (Event.free_chars (start.take len.toNat)),
        by simp [push_position, set_pos_file_owned, fopen, hstart0], hsc, ?_,
        Or.inr (by simp [World.log, hop.2])⟩
      unfold is_scanning at hi0 ⊢
      exact hi0

/-- C13 fails as stated for `push_position`: on an idle scanner with a path
that opens it builds a context, creates and switches to an engine buffer and
leaves the stream open before it returns false; and when the allocation of
the context fails it writes through a null pointer instead of returning. -/
theorem push_position_idle_counterexample :
    is_scanning sample_idle = 0 ∧
    (∃ w1, push_position ['a'] sample_idle = some (0, w1) ∧
      Event.yy_create_buffer (some 1) 1 ∈ w1.trace ∧
      Event.yy_switch_to_buffer 1 ∈ w1.trace ∧
      Event.fclose 1 ∉ w1.trace) ∧
    push_position ['a'] { sample_idle with malloc_script := [false] } = none :=
  ⟨by decide, ⟨_, rfl, by decide, by decide, by decide⟩, rfl⟩

/-- C18 (the code when construction fails after the file has opened):
`set_pos_file_owned` closes the stream and then writes `p->file_owned`
through the null pointer, so it does not return; neither do `push_position`
and, on an idle scanner, `on_file_name`. -/
theorem set_pos_file_owned_failure (fn : List Char) (w : World)
    (hidle : is_scanning w = 0) (hopen : c_string fn ∈ w.openable)
    (hfail : (set_pos_file_unowned (some fn) (fopen fn w).1 (fopen fn w).2).1 = none) :
    set_pos_file_owned fn w = none ∧
    push_position fn w = none ∧
    on_file_name fn w = none := by
  have h1 : set_pos_file_owned fn w = none := by
    unfold set_pos_file_owned
    rcases hf : fopen fn w with ⟨o, w1⟩
    rw [hf] at hfail
    cases o with
    | none => simp [fopen, hopen] at hf
    | some f =>
      simp only at hfail ⊢
      rcases hs : set_pos_file_unowned (some fn) (some f) w1 with ⟨o2, w2⟩
      rw [hs] at hfail
      simp only at hfail
      subst hfail
      rfl
  exact ⟨h1, by simp [push_position, h1], by simp [on_file_name, hidle, h1]⟩

/-! ## Instances on concrete scanners -/

theorem on_string_begins_witness :
    is_scanning sample_idle = 0 ∧ allocs_succeed sample_idle ∧
    (on_string ['a', 'b', 'c'] (['a', 'b', 'c'].length : Nat) sample_idle).1 = 1 ∧
    is_scanning (on_string ['a', 'b', 'c'] (['a', 'b', 'c'].length : Nat) sample_idle).2 = 1 :=
  have h := on_string_begins ['a', 'b', 'c'] sample_idle (by decide) (by decide)
  ⟨by decide, by decide, h.1, h.2.2.2⟩

theorem begin_while_scanning_witness :
    is_scanning sample_nested ≠ 0 ∧
    on_string ['a'] 1 sample_nested = (0, sample_nested) ∧
    on_file_name ['a'] sample_nested = some (0, sample_nested) ∧
    on_file_pointer (some ['a']) (some 9) sample_nested = (0, sample_nested) :=
  ⟨by decide, begin_while_scanning sample_nested ['a'] 1 ['a'] (some ['a']) (some 9) (by decide)⟩

theorem on_file_name_open_failure_witness :
    is_scanning sample_idle = 0 ∧ c_string ['z'] ∉ sample_idle.openable ∧
    on_file_name ['z'] sample_idle =
      some (0, sample_idle.log (Event.fopen (c_string ['z']) none)) :=
  ⟨by decide, by decide, (on_file_name_open_failure ['z'] sample_idle (by decide) (by decide)).1⟩

theorem on_file_name_reports_failure_witness :
    is_scanning sample_idle = 0 ∧ allocs_succeed sample_idle ∧
    c_string ['a'] ∈ sample_idle.openable ∧
    on_file_name ['a'] sample_idle =
      some (0, sample_idle.after_file_context (c_string ['a'])) :=
  ⟨by decide, by decide, by decide,
    (on_file_name_reports_failure ['a'] sample_idle (by decide) (by decide) (by decide)).1⟩

theorem push_position_reports_failure_witness :
    allocs_succeed sample_nested ∧ c_string ['a'] ∈ sample_nested.openable ∧
    push_position ['a'] sample_nested =
      some (0, sample_nested.after_file_context (c_string ['a'])) :=
  ⟨by decide, by decide,
    (push_position_reports_failure ['a'] sample_nested (by decide) (by decide)).1⟩

theorem read_token_after_on_string_witness :
    is_scanning sample_idle = 0 ∧ allocs_succeed sample_idle ∧
    sample_idle.script = Match.lexeme 7 ['a', 'b', 'c'] :: [] ∧ (7 : Int) ≠ 0 ∧
    '\n' ∉ ['a', 'b', 'c'] ∧
    ∃ w1, read_token
        (on_string ['a', 'b', 'c'] (['a', 'b', 'c'].length : Nat) sample_idle).2 =
      some (none, w1) :=
  have h := read_token_after_on_string sample_idle ['a', 'b', 'c'] ['a', 'b', 'c'] 7 []
    (by decide) (by decide) rfl (by decide) (by decide)
  ⟨by decide, by decide, rfl, by decide, by decide, h.elim fun w1 hw1 => ⟨w1, hw1.1⟩⟩

theorem yywrap_lifo_witness :
    1 < sample_nested.scanner.pstack.length ∧
    ∃ wk r w1,
      yywrap_times 1 sample_nested = some (List.replicate 1 0, wk) ∧
      wk.scanner.pstack = sample_nested.scanner.pstack.drop 1 ∧
      yywrap wk = some (r, w1) ∧
      yywrap_times (1 + 1) sample_nested = some (List.replicate 1 0 ++ [r], w1) ∧
      w1.scanner.pstack = sample_nested.scanner.pstack.drop (1 + 1) ∧
      (∀ q rest, sample_nested.scanner.pstack.drop (1 + 1) = q :: rest →
        r = 0 ∧ w1.trace.getLast? = some (Event.yy_switch_to_buffer q.buf)) ∧
      (sample_nested.scanner.pstack.drop (1 + 1) = [] → r = 1 ∧ is_scanning w1 = 0) :=
  ⟨by decide, yywrap_lifo sample_nested 1 (by decide)⟩

theorem idle_operations_witness :
    is_scanning sample_idle = 0 ∧
    (sample_nested.set_last_token 0).scanner.last_token = 0 ∧
    c_string ['z'] ∉ sample_idle.openable ∧
    c_string (['z', 'y'].take (1 : Int).toNat) ∉ sample_idle.openable ∧
    read_token sample_idle = some (none, sample_idle) ∧
    last_token sample_idle = some (none, sample_idle) ∧
    last_token (sample_nested.set_last_token 0) =
      some (none, sample_nested.set_last_token 0) ∧
    push_position ['z'] sample_idle =
      some (0, sample_idle.log (Event.fopen (c_string ['z']) none)) :=
  have h := idle_operations sample_idle (sample_nested.set_last_token 0) ['z'] ['z', 'y'] 1
    (by decide) rfl (by decide) (by decide)
  ⟨by decide, rfl, by decide, by decide, h.1, h.2.1, h.2.2.1, h.2.2.2.1⟩

theorem caller_file_not_closed_witness :
    is_scanning sample_idle = 0 ∧
    (on_file_pointer (some ['f']) (some 9) sample_idle).1 = 1 ∧
    (∃ p, (on_file_pointer (some ['f']) (some 9) sample_idle).2.scanner.pstack = [p] ∧
      p.file = some 9 ∧ p.file_owned = 0) :=
  ⟨by decide, by decide,
    (caller_file_not_closed (some ['f']) 9 sample_idle sample_fresh sample_idle 9 [] 0
      (by decide) (by decide)).1⟩

theorem position_well_formed_witness :
    (set_pos_base (some ['a']) sample_idle).1 =
      some { filename := some ['a'], cur_line := 1, cur_col := 1, pre_line := 1,
             pre_col := 1, buf := 0, file := none, file_owned := 0, string := none } ∧
    well_formed sample_fresh ∧
    well_formed (advance_pos sample_fresh ['\n', 'a'] (['\n', 'a'].length : Nat)) :=
  ⟨by decide, by decide,
    (position_well_formed (some ['a']) sample_idle
      { filename := some ['a'], cur_line := 1, cur_col := 1, pre_line := 1,
        pre_col := 1, buf := 0, file := none, file_owned := 0, string := none }
      sample_fresh ['\n', 'a'] (by decide) (by decide)).2.2⟩

theorem set_pos_file_owned_failure_witness :
    is_scanning sample_alloc_failure = 0 ∧
    c_string ['a'] ∈ sample_alloc_failure.openable ∧
    (set_pos_file_unowned (some ['a']) (fopen ['a'] sample_alloc_failure).1
      (fopen ['a'] sample_alloc_failure).2).1 = none ∧
    set_pos_file_owned ['a'] sample_alloc_failure = none ∧
    on_file_name ['a'] sample_alloc_failure = none :=
  have h := set_pos_file_owned_failure ['a'] sample_alloc_failure
    (by decide) (by decide) (by decide)
  ⟨by decide, by decide, by decide, h.1, h.2.2⟩

theorem advance_pos32_line_col_witness :
    INT_MIN ≤ sample_fresh.cur_line ∧
    sample_fresh.cur_line + ((['a', '\n', 'b'].count '\n' : Nat) : Int) ≤ INT_MAX ∧
    INT_MIN ≤ sample_fresh.cur_col ∧
    sample_fresh.cur_col + ((before_first_newline ['a', '\n', 'b'] : Nat) : Int) ≤ INT_MAX ∧
    ((['a', '\n', 'b'].length : Nat) : Int) ≤ INT_MAX ∧
    (advance_pos32 sample_fresh ['a', '\n', 'b'] (['a', '\n', 'b'].length : Nat)).cur_line =
      sample_fresh.cur_line + ((['a', '\n', 'b'].count '\n' : Nat) : Int) :=
  ⟨by decide, by decide, by decide, by decide, by decide,
    (advance_pos32_line_col sample_fresh ['a', '\n', 'b']
      (by decide) (by decide) (by decide) (by decide) (by decide)).1⟩

end Flexast
